import Mathlib

/-!
# Verification of the eve-app repository's specified behaviours

The repository is mostly design documentation (prompt documents and an
implementation plan) together with a React frontend.  The backend components
(ESI client, contract appraisal, routing engine, market fetching) exist only
as design text, so they are modelled here faithfully from that text; the
frontend components (API client interceptors, auth provider, image component,
placeholder pages) are embedded from the TypeScript source.
-/

namespace EveApp

/-! ## ESI client: global lockdown and error reaction
Modelled from the spec: `prompt_docs/EVE APP Backend.md`, section 3
("ESI Client (The Violent Rate Limiter)").  The backend code itself is not
in the repository; the definitions below follow that document's words. -/

namespace Esi

/-- The shared Redis cache state seen by the ESI client: whether the key
`ESI_GLOBAL_LOCKDOWN` is currently present, and the accumulated error
counter kept in the cache. -/
structure RedisState where
  lockdown : Bool
  errorCount : Nat
deriving DecidableEq, Repr

/-- Observable side effects of one ESI client request. -/
inductive Action where
  | httpRequest (url : String)
  | logHighSeverity (url : String)
  | sleep (seconds : Nat)
  | setLockdownKey (ttlSeconds : Nat)
deriving DecidableEq, Repr

/-- The result returned to the caller of the ESI client. -/
inductive Outcome where
  | raise429
  | success (status : Nat)
  | failure (status : Nat)
deriving DecidableEq, Repr

/-- A status is a 4xx/5xx HTTP error. -/
def isHttpError (status : Nat) : Bool :=
  400 ≤ status && status < 600

/-- Modelled from the spec: "Global Lockdown: Before ANY request, check Redis
for `ESI_GLOBAL_LOCKDOWN`. If exists, raise `429 Too Many Requests`
immediately."  and "Error Handling: If ONE 4xx/5xx error occurs:
1. Log the error with high severity. 2. Sleep for 30 seconds.
3. Set `ESI_GLOBAL_LOCKDOWN` in Redis for 1 minute."
`remoteStatus` is the status the remote API would answer with if the
outbound request is actually issued. -/
def esiRequest (st : RedisState) (url : String) (remoteStatus : Nat) :
    Outcome × List Action :=
  if st.lockdown then
    (Outcome.raise429, [])
  else if isHttpError remoteStatus then
    (Outcome.failure remoteStatus,
      [Action.httpRequest url, Action.logHighSeverity url,
       Action.sleep 30, Action.setLockdownKey 60])
  else
    (Outcome.success remoteStatus, [Action.httpRequest url])

/-- All side effects produced by a sequence of requests attempted while the
cache is in state `st`. -/
def esiRun (st : RedisState) (reqs : List (String × Nat)) : List Action :=
  reqs.flatMap fun r => (esiRequest st r.1 r.2).2

/-- The error-budget traffic-light state of the client.
Modelled from the spec: `.agent/implementation_plan.md`, `esi_client.py`
Lockdown Logic. -/
inductive BudgetState where
  | green
  | yellow
  | red
deriving DecidableEq, Repr

/-- Modelled from the spec: "Green (< 50 errors): Normal operation; Yellow
(50-90 errors): Exponential backoff + jitter; Red (≥ 90 errors): Raises
`ESILockdownException`, blocks requests."  The count is the error count
kept in the cache (`esi:error_count`). -/
def budgetState (errors : Nat) : BudgetState :=
  if errors < 50 then BudgetState.green
  else if errors < 90 then BudgetState.yellow
  else BudgetState.red

/-- What the client does with incoming requests in each budget state. -/
inductive AdmissionPolicy where
  | normal
  | backoffWithJitter
  | raiseLockdownAndBlock
deriving DecidableEq, Repr

/-- Modelled from the spec: the behaviour attached to each traffic-light
state in the implementation plan's lockdown logic. -/
def budgetPolicy : BudgetState → AdmissionPolicy
  | BudgetState.green => AdmissionPolicy.normal
  | BudgetState.yellow => AdmissionPolicy.backoffWithJitter
  | BudgetState.red => AdmissionPolicy.raiseLockdownAndBlock

end Esi

end EveApp

namespace EveApp.Frontend

/-! ## Frontend API client (`frontend/src/api/client.ts`) -/

/-- The part of an axios response the interceptors inspect. -/
structure AxiosResponse where
  status : Nat
deriving DecidableEq, Repr

/-- An axios error; `response` is present when the server answered with an
error status and absent for network-level failures. -/
structure AxiosError where
  response : Option AxiosResponse
deriving DecidableEq, Repr

/-- Browser-visible side effects of the interceptors. -/
inductive BrowserAction where
  | consoleWarn (msg : String)
  | consoleError (msg : String)
  | redirect (href : String)
  | alertBox (msg : String)
deriving DecidableEq, Repr

/-- What an interceptor hands back to the promise chain. -/
inductive InterceptorResult where
  | fulfilled (r : AxiosResponse)
  | rejected (e : AxiosError)
deriving DecidableEq, Repr

/-- The success handler of `apiClient.interceptors.response`:
`(response) => response`. -/
def onResponseFulfilled (r : AxiosResponse) : InterceptorResult × List BrowserAction :=
  (InterceptorResult.fulfilled r, [])

/-- The alert text raised on a 429 in `client.ts`. -/
def lockdownAlertText : String :=
  "GLOBAL LOCKDOWN ACTIVE. ESI Rate Limits Exceeded. Please wait."

/-- The error handler of `apiClient.interceptors.response` in `client.ts`:
when `error.response` exists, a 401 warns and redirects the browser to
`/login` and a 429 logs and raises the global-lockdown alert; in every case
the handler returns `Promise.reject(error)` with the original error. -/
def onResponseRejected (e : AxiosError) : InterceptorResult × List BrowserAction :=
  let acts :=
    match e.response with
    | some r =>
        (if r.status = 401 then
          [BrowserAction.consoleWarn "Session expired or unauthorized. Redirecting to login.",
           BrowserAction.redirect "/login"]
         else []) ++
        (if r.status = 429 then
          [BrowserAction.consoleError "GLOBAL LOCKDOWN: ESI Rate Limits Exceeded.",
           BrowserAction.alertBox lockdownAlertText]
         else [])
    | none => []
  (InterceptorResult.rejected e, acts)

/-! ## Auth provider (`src/unnamed/part_003`, the `AuthContext` module) -/

/-- `CharacterSession` from `frontend/src/types/index.ts`. -/
structure CharacterSession where
  character_id : Nat
  character_name : String
  authenticated : Bool
deriving DecidableEq, Repr

/-- The provider's React state: the `session` and `loading` `useState` pair. -/
structure AuthState where
  session : Option CharacterSession
  loading : Bool
deriving DecidableEq, Repr

/-- `useState<CharacterSession | null>(null)` and `useState(true)`. -/
def initialAuthState : AuthState := { session := none, loading := true }

/-- `checkSession` from the `AuthProvider`: `resp` is `some data` when the
`/auth/session` fetch succeeded with an ok response whose JSON parsed to
`data`, and `none` when the fetch failed or the response was not ok.  The
session is stored only when `data.authenticated` holds; `loading` always
ends up `false`. -/
def checkSession (st : AuthState) (resp : Option CharacterSession) : AuthState :=
  match resp with
  | some data =>
      if data.authenticated then { session := some data, loading := false }
      else { st with loading := false }
  | none => { st with loading := false }

/-- `logout` from the `AuthProvider`: `setSession(null)`. -/
def logout (st : AuthState) : AuthState := { st with session := none }

/-- `login` from the `AuthProvider`: a pure browser redirect, no state
change. -/
def login (st : AuthState) : AuthState := st

/-- `isAuthenticated: session?.authenticated ?? false`. -/
def isAuthenticated (st : AuthState) : Bool :=
  match st.session with
  | some s => s.authenticated
  | none => false

/-- The invariant of C9: the stored session is `null` or marked
authenticated. -/
def AuthInv (st : AuthState) : Prop :=
  st.session = none ∨ ∃ s, st.session = some s ∧ s.authenticated = true

/-! ## EveImage component (`frontend/src/components/Common/EveImage.tsx`) -/

/-- The `ResourceType` union of `EveImage.tsx`. -/
inductive ResourceType where
  | type
  | character
  | corporation
  | alliance
deriving DecidableEq, Repr

/-- The string each `ResourceType` member interpolates to. -/
def resourceTypeStr : ResourceType → String
  | ResourceType.type => "type"
  | ResourceType.character => "character"
  | ResourceType.corporation => "corporation"
  | ResourceType.alliance => "alliance"

/-- Decimal digits of a natural number, fuel-indexed so the recursion is
structural. -/
def natCharsAux : Nat → Nat → List Char
  | 0, _ => []
  | fuel + 1, n =>
      if n < 10 then [Nat.digitChar n]
      else natCharsAux fuel (n / 10) ++ [Nat.digitChar (n % 10)]

/-- The decimal string a JavaScript template literal renders for a numeric
id. -/
def natStr (n : Nat) : String := String.mk (natCharsAux (n + 1) n)

/-- `import.meta.env.VITE_API_URL || 'http://localhost:8000'` with the
environment variable unset. -/
def defaultBaseURL : String := "http://localhost:8000"

/-- The `src` built by `EveImage`: the local proxy URL
`baseURL`/api/images/`type`/`id`. -/
def eveImageSrc (baseURL : String) (t : ResourceType) (id : Nat) : String :=
  baseURL ++ "/api/images/" ++ resourceTypeStr t ++ "/" ++ natStr id

/-- The `alt` attribute of `EveImage`: the supplied text when truthy,
otherwise `type` followed by a space and the id (JavaScript `||` also
rejects an empty supplied string). -/
def eveImageAlt (t : ResourceType) (id : Nat) (alt : Option String) : String :=
  match alt with
  | some a => if a = "" then resourceTypeStr t ++ " " ++ natStr id else a
  | none => resourceTypeStr t ++ " " ++ natStr id

/-! ## Placeholder components (`MainLayout.tsx`, the NEOCOM `Dashboard`
page, and the AuthContext-based `Dashboard` in `src/unnamed/part_001`) -/

/-- The identity the topbar displays. -/
structure DisplayUser where
  id : Nat
  name : String
deriving DecidableEq, Repr

/-- `MOCK_USER` from `MainLayout.tsx`. -/
def MOCK_USER : DisplayUser := { id := 999999, name := "Capsuleer" }

/-- The topbar user rendered by `MainLayout`: the component reads neither
props nor context ("replace with context later"), so the session argument
is ignored. -/
def mainLayoutUser (_ : Option CharacterSession) : DisplayUser := MOCK_USER

/-- The wallet balance text rendered by the NEOCOM `Dashboard` page: a
string literal, independent of any session or backend response. -/
def dashboardWalletText (_ : Option CharacterSession) : String :=
  "1,450,000,000 ISK"

/-- The greeting rendered by the AuthContext-based `Dashboard`
(`src/unnamed/part_001`): `Welcome, ` then `session?.character_name` then
`!`; an absent session renders nothing for the optional chain. -/
def authDashboardGreeting (s : Option CharacterSession) : String :=
  "Welcome, " ++
    (match s with
     | some sess => sess.character_name
     | none => "") ++ "!"

end EveApp.Frontend

namespace EveApp.Contracts

/-! ## Contract appraisal
Modelled from the spec: `.agent/implementation_plan.md`,
`contract_service.py` `appraise_contract` (steps 3-6), and
`prompt_docs/EVE APP Backend.md` section 4.E (Contracts / Valuation).
No backend code exists; the definitions follow the plan's words. -/

/-- Jita market statistics for one item of a contract: the best (lowest)
sell price and the best (highest) buy price at the trade hub. -/
structure ItemStats where
  min_sell : ℚ
  max_buy : ℚ
deriving DecidableEq, Repr

/-- Modelled from the spec: "Calculate Jita Split for each item:
`(min_sell + max_buy) / 2`". -/
def jitaSplit (s : ItemStats) : ℚ := (s.min_sell + s.max_buy) / 2

/-- A public contract: the stats of its items and its asking price. -/
structure Contract where
  items : List ItemStats
  askingPrice : ℚ
deriving DecidableEq, Repr

/-- The appraisal returned for a contract. -/
structure ContractAppraisal where
  totalValue : ℚ
  askingPrice : ℚ
  margin : ℚ
deriving DecidableEq, Repr

/-- Modelled from the spec: "Sum total estimated value. Compare against
contract asking price." -/
def appraise_contract (c : Contract) : ContractAppraisal :=
  { totalValue := (c.items.map jitaSplit).sum
    askingPrice := c.askingPrice
    margin := (c.items.map jitaSplit).sum - c.askingPrice }

end EveApp.Contracts

namespace EveApp.Market

/-! ## Paginated market fetching
Modelled from the spec: `prompt_docs/EVE APP Backend.md` section 3
("Pagination: Handle `X-Pages`. Add a 2-second delay between page fetches.
Region Loop: Add a 5-second delay between processing different regions")
and `.agent/implementation_plan.md` `fetch_market_orders` ("Uses
`asyncio.gather()` for concurrent page fetching").  The two documents
disagree; both designs are modelled. -/

/-- Events of the sequential fetching trace. -/
inductive FetchEv where
  | page (region pageNo : Nat)
  | wait (seconds : Nat)
deriving DecidableEq, Repr

/-- Modelled from the spec: the prompt document's sequential page loop for
one region, a 2-second delay between successive page fetches. -/
def fetchPages (region : Nat) : Nat → List FetchEv
  | 0 => []
  | 1 => [FetchEv.page region 1]
  | n + 2 => fetchPages region (n + 1) ++ [FetchEv.wait 2, FetchEv.page region (n + 2)]

/-- Modelled from the spec: the prompt document's region loop, a 5-second
delay between processing different regions; each region carries its page
count. -/
def fetchRegions : List (Nat × Nat) → List FetchEv
  | [] => []
  | [r] => fetchPages r.1 r.2
  | r :: rest => fetchPages r.1 r.2 ++ FetchEv.wait 5 :: fetchRegions rest

/-- The page numbers fetched by a trace, in order. -/
def pagesOf (t : List FetchEv) : List Nat :=
  t.filterMap fun e => match e with
    | FetchEv.page _ p => some p
    | _ => none

/-- Modelled from the spec: the implementation plan's `fetch_market_orders`
uses `asyncio.gather()` for concurrent page fetching, so all page tasks of
one paginated request are launched together: every page is in flight at
launch time 0. -/
def gatherInFlight (pages : Nat) (t : Nat) : List Nat :=
  if t = 0 then List.range' 1 pages else []

/-- The claim's phrase "no two page fetches of the same paginated request
are in flight concurrently", read over the gather design's in-flight sets. -/
def noTwoFetchesInFlight (pages : Nat) : Prop :=
  ∀ t, (gatherInFlight pages t).length ≤ 1

end EveApp.Market

namespace EveApp.Routing

/-! ## Route calculation
Modelled from the spec: `.agent/implementation_plan.md`,
`route_service.py` `calculate_route` — a weighted Dijkstra query delegated
to the Neo4j graph engine, where an edge's weight depends only on the
destination system's security status — and `prompt_docs/EVE APP Backend.md`
section 4.D.  No backend code exists; the graph engine is modelled by an
executable minimal-weight route search over the gate graph. -/

/-- The universe graph built in Neo4j: directed gate relationships between
solar-system ids, and every system's security status in tenths (the rounded
security status of the game; 0.5 is `5`, -1.0 is `-10`). -/
structure StarMap where
  sec : Nat → Int
  gates : List (Nat × Nat)

/-- Modelled from the spec: the weight of travelling into a system —
High Sec (security at least 0.5) weighs 1, Low Sec (0.1 to 0.4) weighs 50,
Null Sec (at most 0.0) weighs 1000. -/
def riskWeight (secTenths : Int) : Nat :=
  if 5 ≤ secTenths then 1
  else if 1 ≤ secTenths then 50
  else 1000

/-- A gate leads from `a` to `b`. -/
def edgeRel (g : StarMap) (a b : Nat) : Prop := (a, b) ∈ g.gates

instance (g : StarMap) : DecidableRel (edgeRel g) := fun a b =>
  inferInstanceAs (Decidable ((a, b) ∈ g.gates))

/-- Weight of a route: the sum of the risk weights of the destination
system of each jump, so each edge's weight is a function of the destination
system's security status alone. -/
def routeWeight (g : StarMap) (p : List Nat) : Nat :=
  (p.tail.map fun v => riskWeight (g.sec v)).sum

/-- A route from `a` to `b`: a nonempty list of systems starting at `a`,
ending at `b`, every consecutive pair joined by a gate. -/
def validRoute (g : StarMap) (a b : Nat) (p : List Nat) : Prop :=
  p.head? = some a ∧ p.getLast? = some b ∧ List.Chain' (edgeRel g) p

instance (g : StarMap) (a b : Nat) (p : List Nat) : Decidable (validRoute g a b p) :=
  inferInstanceAs (Decidable (_ ∧ _ ∧ _))

/-- Every system that is an endpoint of some gate. -/
def endpoints (g : StarMap) : List Nat := g.gates.flatMap fun e => [e.1, e.2]

/-- The systems reachable from `v` through one gate. -/
def edgesFrom (g : StarMap) (v : Nat) : List Nat :=
  (g.gates.filter fun e => e.1 == v).map fun e => e.2

/-- All gate-following extensions of the path `pre ++ [v]` that revisit no
system, up to `fuel` further jumps. -/
def extendPaths (g : StarMap) : Nat → List Nat → Nat → List (List Nat)
  | 0, pre, v => [pre ++ [v]]
  | fuel + 1, pre, v =>
      (pre ++ [v]) ::
        ((edgesFrom g v).filter fun w => !decide (w ∈ pre ++ [v])).flatMap
          fun w => extendPaths g fuel (pre ++ [v]) w

/-- Enough fuel to cover every duplicate-free route. -/
def vertexBound (g : StarMap) : Nat := 2 * g.gates.length + 1

/-- Every duplicate-free route from `a` to `b`. -/
def allRoutes (g : StarMap) (a b : Nat) : List (List Nat) :=
  (extendPaths g (vertexBound g) [] a).filter fun p => p.getLast? == some b

/-- First element of minimal measure, scanning left to right. -/
def minBy (f : List Nat → Nat) (ps : List (List Nat)) : Option (List Nat) :=
  match ps with
  | [] => none
  | p :: rest => some (rest.foldl (fun best q => if f q < f best then q else best) p)

/-- Modelled from the spec: the route query — a minimal-total-weight route
under `riskWeight`, `none` when no route exists. -/
def calculate_route (g : StarMap) (a b : Nat) : Option (List Nat) :=
  minBy (routeWeight g) (allRoutes g a b)

/-- A small universe used to instantiate the correctness theorem: systems
1, 2, 3 in High Sec, system 4 in Null Sec, gates both ways along 1-2, 2-3,
1-4, 4-3. -/
def sampleMap : StarMap :=
  { sec := fun v => if v = 4 then -5 else 9
    gates := [(1,2),(2,1),(2,3),(3,2),(1,4),(4,1),(4,3),(3,4)] }

end EveApp.Routing

namespace EveApp

/-- C1: with the global lockdown key present, every request raises 429 and
produces no outbound HTTP action, and a whole run of requests attempted
while the key exists produces no outbound HTTP action at all. -/
theorem esi_global_lockdown_blocks (st : Esi.RedisState) (h : st.lockdown = true) :
    (∀ url status, (Esi.esiRequest st url status).1 = Esi.Outcome.raise429 ∧
      ∀ u, Esi.Action.httpRequest u ∉ (Esi.esiRequest st url status).2) ∧
    ∀ reqs, ∀ u, Esi.Action.httpRequest u ∉ Esi.esiRun st reqs := by
  constructor
  · intro url status
    constructor
    · simp [Esi.esiRequest, h]
    · intro u
      simp [Esi.esiRequest, h]
  · intro reqs u
    simp only [Esi.esiRun, List.mem_flatMap]
    rintro ⟨r, _, hmem⟩
    simp [Esi.esiRequest, h] at hmem

/-- Witness for `esi_global_lockdown_blocks` at a concrete locked-down state. -/
theorem esi_global_lockdown_blocks_w :
    (∀ url status,
      (Esi.esiRequest ⟨true, 0⟩ url status).1 = Esi.Outcome.raise429 ∧
      ∀ u, Esi.Action.httpRequest u ∉ (Esi.esiRequest ⟨true, 0⟩ url status).2) ∧
    ∀ reqs, ∀ u, Esi.Action.httpRequest u ∉ Esi.esiRun ⟨true, 0⟩ reqs :=
  esi_global_lockdown_blocks ⟨true, 0⟩ rfl

/-- C2: a single 4xx/5xx error, with no lockdown in place, makes the client
log with high severity, sleep 30 seconds and set the lockdown key with a
60-second (1 minute) TTL; the reaction is the same whatever the accumulated
error count, in particular when this is the very first error. -/
theorem esi_single_error_reaction (st : Esi.RedisState) (url : String)
    (status : Nat) (hlock : st.lockdown = false)
    (herr : Esi.isHttpError status = true) :
    (Esi.esiRequest st url status).2 =
      [Esi.Action.httpRequest url, Esi.Action.logHighSeverity url,
       Esi.Action.sleep 30, Esi.Action.setLockdownKey 60] ∧
    (Esi.esiRequest st url status).2 =
      (Esi.esiRequest ⟨false, 0⟩ url status).2 := by
  constructor <;> simp [Esi.esiRequest, hlock, herr]

/-- Witness for `esi_single_error_reaction` at a concrete 500 response. -/
theorem esi_single_error_reaction_w :
    (Esi.esiRequest ⟨false, 7⟩ "/markets/" 500).2 =
      [Esi.Action.httpRequest "/markets/", Esi.Action.logHighSeverity "/markets/",
       Esi.Action.sleep 30, Esi.Action.setLockdownKey 60] ∧
    (Esi.esiRequest ⟨false, 7⟩ "/markets/" 500).2 =
      (Esi.esiRequest ⟨false, 0⟩ "/markets/" 500).2 :=
  esi_single_error_reaction ⟨false, 7⟩ "/markets/" 500 rfl (by decide)

/-- C3: the error-budget state partitions the error counts at thresholds 50
and 90: Green exactly below 50 (normal operation), Yellow exactly on
[50, 90) (backoff with jitter), Red exactly at 90 and above (lockdown
exception, requests blocked); so every count is in exactly one state. -/
theorem esi_budget_states (n : Nat) :
    (Esi.budgetState n = Esi.BudgetState.green ↔ n < 50) ∧
    (Esi.budgetState n = Esi.BudgetState.yellow ↔ 50 ≤ n ∧ n < 90) ∧
    (Esi.budgetState n = Esi.BudgetState.red ↔ 90 ≤ n) ∧
    Esi.budgetPolicy Esi.BudgetState.green = Esi.AdmissionPolicy.normal ∧
    Esi.budgetPolicy Esi.BudgetState.yellow = Esi.AdmissionPolicy.backoffWithJitter ∧
    Esi.budgetPolicy Esi.BudgetState.red = Esi.AdmissionPolicy.raiseLockdownAndBlock := by
  refine ⟨?_, ?_, ?_, rfl, rfl, rfl⟩ <;>
    · unfold Esi.budgetState
      split <;> rename_i h₁
      · simp_all <;> omega
      · split <;> rename_i h₂ <;> simp_all <;> omega

/-- C4: the response interceptor rejects every error with the original
error; when the error carries a response, a 401 status redirects the
browser to `/login` and a 429 status raises the global-lockdown alert;
successful responses are returned unchanged with no side effect. -/
theorem api_response_interceptor (e : Frontend.AxiosError)
    (r : Frontend.AxiosResponse) (h : e.response = some r) :
    (Frontend.onResponseRejected e).1 = Frontend.InterceptorResult.rejected e ∧
    (r.status = 401 →
      Frontend.BrowserAction.redirect "/login" ∈ (Frontend.onResponseRejected e).2) ∧
    (r.status = 429 →
      Frontend.BrowserAction.alertBox Frontend.lockdownAlertText ∈
        (Frontend.onResponseRejected e).2) ∧
    (∀ e₂, (Frontend.onResponseRejected e₂).1 = Frontend.InterceptorResult.rejected e₂) ∧
    (∀ resp, Frontend.onResponseFulfilled resp =
      (Frontend.InterceptorResult.fulfilled resp, [])) := by
  refine ⟨rfl, ?_, ?_, fun _ => rfl, fun _ => rfl⟩
  · intro h401
    simp [Frontend.onResponseRejected, h, h401]
  · intro h429
    simp [Frontend.onResponseRejected, h, h429]

/-- Witness for `api_response_interceptor` at a concrete 401 error. -/
theorem api_response_interceptor_w :
    (Frontend.onResponseRejected ⟨some ⟨401⟩⟩).1 =
      Frontend.InterceptorResult.rejected ⟨some ⟨401⟩⟩ ∧
    ((Frontend.AxiosResponse.mk 401).status = 401 →
      Frontend.BrowserAction.redirect "/login" ∈
        (Frontend.onResponseRejected ⟨some ⟨401⟩⟩).2) ∧
    ((Frontend.AxiosResponse.mk 401).status = 429 →
      Frontend.BrowserAction.alertBox Frontend.lockdownAlertText ∈
        (Frontend.onResponseRejected ⟨some ⟨401⟩⟩).2) ∧
    (∀ e₂, (Frontend.onResponseRejected e₂).1 = Frontend.InterceptorResult.rejected e₂) ∧
    (∀ resp, Frontend.onResponseFulfilled resp =
      (Frontend.InterceptorResult.fulfilled resp, [])) :=
  api_response_interceptor ⟨some ⟨401⟩⟩ ⟨401⟩ rfl

/-- C9: the auth provider's invariant — the stored session is null or has
`authenticated = true` — holds initially and is preserved by
`checkSession`, `logout` and `login`, and under it `isAuthenticated` is
true exactly when the session is non-null. -/
theorem auth_provider_invariant (st : Frontend.AuthState)
    (hInv : Frontend.AuthInv st) :
    Frontend.AuthInv Frontend.initialAuthState ∧
    (∀ resp, Frontend.AuthInv (Frontend.checkSession st resp)) ∧
    Frontend.AuthInv (Frontend.logout st) ∧
    Frontend.AuthInv (Frontend.login st) ∧
    (Frontend.isAuthenticated st = true ↔ st.session ≠ none) := by
  refine ⟨Or.inl rfl, ?_, Or.inl rfl, hInv, ?_⟩
  · intro resp
    cases resp with
    | none => exact hInv.imp (fun h => h) (fun h => h)
    | some data =>
        by_cases hauth : data.authenticated = true
        · exact Or.inr ⟨data, by simp [Frontend.checkSession, hauth], hauth⟩
        · have : Frontend.checkSession st (some data) =
            { st with loading := false } := by
            simp [Frontend.checkSession]
            intro hc
            exact absurd hc hauth
          rw [this]
          exact hInv.imp (fun h => h) (fun h => h)
  · cases hInv with
    | inl h => simp [Frontend.isAuthenticated, h]
    | inr h =>
        obtain ⟨s, hs, hsa⟩ := h
        simp [Frontend.isAuthenticated, hs, hsa]

/-- Every digit character produced for a value below ten satisfies
`Char.isDigit`. -/
theorem digitChar_isDigit (m : Nat) (h : m < 10) : (Nat.digitChar m).isDigit = true := by
  interval_cases m <;> decide

/-- Every character of the rendered decimal id is a digit. -/
theorem natCharsAux_digits :
    ∀ fuel n c, c ∈ Frontend.natCharsAux fuel n → c.isDigit = true := by
  intro fuel
  induction fuel with
  | zero => intro n c h; simp [Frontend.natCharsAux] at h
  | succ f ih =>
      intro n c h
      by_cases h10 : n < 10
      · simp [Frontend.natCharsAux, h10] at h
        subst h
        exact digitChar_isDigit n h10
      · simp [Frontend.natCharsAux, h10] at h
        rcases h with h | h
        · exact ih _ _ h
        · subst h
          exact digitChar_isDigit _ (Nat.mod_lt _ (by norm_num))

/-- C10: the image `src` is exactly the local proxy URL
`baseURL`/api/images/`type`/`id` for every resource type and id; with the
default base URL the host `images.evetech.net` never occurs in it; and a
missing `alt` defaults to the type followed by the id. -/
theorem eve_image_local_proxy :
    (∀ b t id, Frontend.eveImageSrc b t id =
      b ++ "/api/images/" ++ Frontend.resourceTypeStr t ++ "/" ++ Frontend.natStr id) ∧
    (∀ t id, ¬ ("images.evetech.net".data <:+:
        (Frontend.eveImageSrc Frontend.defaultBaseURL t id).data)) ∧
    (∀ t id, Frontend.eveImageAlt t id none =
      Frontend.resourceTypeStr t ++ " " ++ Frontend.natStr id) := by
  refine ⟨fun _ _ _ => rfl, ?_, fun _ _ => rfl⟩
  intro t id h
  have hv : 'v' ∈ (Frontend.eveImageSrc Frontend.defaultBaseURL t id).data :=
    h.subset (by decide)
  cases t <;>
    · simp only [Frontend.eveImageSrc, Frontend.defaultBaseURL,
        Frontend.resourceTypeStr, Frontend.natStr,
        String.data_append, List.mem_append] at hv
      rcases hv with (((hv | hv) | hv) | hv) | hv
      · exact absurd hv (by decide)
      · exact absurd hv (by decide)
      · exact absurd hv (by decide)
      · exact absurd hv (by decide)
      · have := natCharsAux_digits _ _ _ hv
        simp at this

/-- C8 counterexample: the AuthContext-based `Dashboard`
(`src/unnamed/part_001`) renders session-dependent output, so the frontend
is not made only of components whose rendered output is independent of the
session. -/
theorem frontend_session_dependent_cx :
    Frontend.authDashboardGreeting (some ⟨1, "Alice", true⟩) ≠
      Frontend.authDashboardGreeting (some ⟨2, "Bob", true⟩) := by
  decide

/-- C8 (amended): the cited NEOCOM placeholder components render constant
mock data — the layout always shows character `Capsuleer` with id 999999
and the dashboard always shows a wallet balance of 1,450,000,000 ISK —
whatever the session. -/
theorem frontend_mock_placeholders :
    (∀ s s', Frontend.mainLayoutUser s = Frontend.mainLayoutUser s') ∧
    (∀ s, Frontend.mainLayoutUser s = Frontend.MOCK_USER) ∧
    Frontend.MOCK_USER.name = "Capsuleer" ∧
    Frontend.MOCK_USER.id = 999999 ∧
    (∀ s s', Frontend.dashboardWalletText s = Frontend.dashboardWalletText s') ∧
    (∀ s, Frontend.dashboardWalletText s = "1,450,000,000 ISK") :=
  ⟨fun _ _ => rfl, fun _ => rfl, rfl, rfl, fun _ _ => rfl, fun _ => rfl⟩

/-- C5: the appraisal values each item at `(min_sell + max_buy) / 2`, sums
those values into the total, and compares the total against the asking
price; for an item whose best buy does not exceed its best sell, the split
lies between the two. -/
theorem contract_jita_split_appraisal (c : Contracts.Contract)
    (s : Contracts.ItemStats) (h : s.max_buy ≤ s.min_sell) :
    (Contracts.appraise_contract c).totalValue =
      (c.items.map fun i => (i.min_sell + i.max_buy) / 2).sum ∧
    (Contracts.appraise_contract c).askingPrice = c.askingPrice ∧
    (Contracts.appraise_contract c).margin =
      (Contracts.appraise_contract c).totalValue - c.askingPrice ∧
    Contracts.jitaSplit s = (s.min_sell + s.max_buy) / 2 ∧
    s.max_buy ≤ Contracts.jitaSplit s ∧
    Contracts.jitaSplit s ≤ s.min_sell := by
  refine ⟨rfl, rfl, rfl, rfl, ?_, ?_⟩ <;>
    · unfold Contracts.jitaSplit
      linarith

/-- Witness for `contract_jita_split_appraisal` at a concrete one-item
contract. -/
theorem contract_jita_split_appraisal_w :
    (Contracts.appraise_contract ⟨[⟨10, 6⟩], 5⟩).totalValue =
      (([⟨10, 6⟩] : List Contracts.ItemStats).map
        fun i => (i.min_sell + i.max_buy) / 2).sum ∧
    (Contracts.appraise_contract ⟨[⟨10, 6⟩], 5⟩).askingPrice = (5 : ℚ) ∧
    (Contracts.appraise_contract ⟨[⟨10, 6⟩], 5⟩).margin =
      (Contracts.appraise_contract ⟨[⟨10, 6⟩], 5⟩).totalValue - (5 : ℚ) ∧
    Contracts.jitaSplit ⟨10, 6⟩ = ((10 : ℚ) + 6) / 2 ∧
    (Contracts.ItemStats.mk 10 6).max_buy ≤ Contracts.jitaSplit ⟨10, 6⟩ ∧
    Contracts.jitaSplit ⟨10, 6⟩ ≤ (Contracts.ItemStats.mk 10 6).min_sell :=
  contract_jita_split_appraisal ⟨[⟨10, 6⟩], 5⟩ ⟨10, 6⟩ (by norm_num)

/-- A delay-separated trace with one more element at the end. -/
theorem intersperse_append_last {α : Type} (sep a : α) (l : List α) (h : l ≠ []) :
    List.intersperse sep (l ++ [a]) = List.intersperse sep l ++ [sep, a] := by
  induction l with
  | nil => exact absurd rfl h
  | cons x l' ih =>
      cases l' with
      | nil => simp [List.intersperse]
      | cons y l'' =>
          have := ih (by simp)
          simp only [List.cons_append, List.intersperse_cons_cons] at this ⊢
          rw [this]

/-- `List.range'` from 1 grows by its upper end. -/
theorem range'_one_concat (n : Nat) :
    List.range' 1 (n + 2) = List.range' 1 (n + 1) ++ [n + 2] := by
  have h := @List.range'_concat 1 1 (n + 1)
  rw [one_mul] at h
  have h2 : 1 + (n + 1) = n + 2 := by omega
  rw [h2] at h
  exact h

/-- The sequential page loop is the pages 1..n in order separated by
2-second delays. -/
theorem fetchPages_intersperse (r n : Nat) :
    Market.fetchPages r n =
      List.intersperse (Market.FetchEv.wait 2)
        ((List.range' 1 n).map (Market.FetchEv.page r)) := by
  induction n using Nat.strong_induction_on with
  | _ n ih =>
      match n with
      | 0 => simp [Market.fetchPages]
      | 1 => simp [Market.fetchPages, List.range']
      | n + 2 =>
          have hne : (List.range' 1 (n + 1)).map (Market.FetchEv.page r) ≠ [] := by
            simp [List.range'_eq_nil]
          rw [Market.fetchPages, ih (n + 1) (by omega), range'_one_concat,
            List.map_append]
          simp only [List.map_cons, List.map_nil]
          rw [intersperse_append_last _ _ _ hne]

/-- The pages fetched by the sequential loop are exactly 1..n in order. -/
theorem pagesOf_fetchPages (r n : Nat) :
    Market.pagesOf (Market.fetchPages r n) = List.range' 1 n := by
  induction n using Nat.strong_induction_on with
  | _ n ih =>
      match n with
      | 0 => simp [Market.fetchPages, Market.pagesOf]
      | 1 => simp [Market.fetchPages, Market.pagesOf, List.range']
      | n + 2 =>
          rw [Market.fetchPages, Market.pagesOf, List.filterMap_append,
            range'_one_concat]
          have := ih (n + 1) (by omega)
          rw [Market.pagesOf] at this
          rw [this]
          simp [Market.pagesOf]

/-- C7 counterexample: under the implementation plan's
`fetch_market_orders` design — `asyncio.gather()` for concurrent page
fetching — already two pages of one paginated request are in flight
concurrently, refuting the claim's "no two page fetches of the same
paginated request are in flight concurrently". -/
theorem fetch_concurrent_pages_cx : ¬ Market.noTwoFetchesInFlight 2 := by
  intro h
  have h0 := h 0
  simp [Market.gatherInFlight] at h0

/-- C7 (amended): under the prompt document's design the pages of one
region are fetched sequentially — pages 1..n in order, a 2-second delay
between successive page fetches — and regions are processed one after the
other with a 5-second delay between them. -/
theorem fetch_pagination_delays :
    (∀ r n, Market.fetchPages r n =
      List.intersperse (Market.FetchEv.wait 2)
        ((List.range' 1 n).map (Market.FetchEv.page r))) ∧
    (∀ r n, Market.pagesOf (Market.fetchPages r n) = List.range' 1 n) ∧
    (∀ rs, Market.fetchRegions rs =
      List.intercalate [Market.FetchEv.wait 5]
        (rs.map fun p => Market.fetchPages p.1 p.2)) := by
  refine ⟨fetchPages_intersperse, pagesOf_fetchPages, ?_⟩
  intro rs
  induction rs with
  | nil => simp [Market.fetchRegions, List.intercalate]
  | cons r rest ih =>
      cases rest with
      | nil => simp [Market.fetchRegions, List.intercalate, List.intersperse]
      | cons r2 rest' =>
          rw [show Market.fetchRegions (r :: r2 :: rest') =
            Market.fetchPages r.1 r.2 ++
              Market.FetchEv.wait 5 :: Market.fetchRegions (r2 :: rest') from rfl]
          rw [ih]
          simp [List.intercalate, List.intersperse_cons_cons]

/-- Witness for `auth_provider_invariant` at the initial state. -/
theorem auth_provider_invariant_w :
    Frontend.AuthInv Frontend.initialAuthState ∧
    (∀ resp, Frontend.AuthInv (Frontend.checkSession Frontend.initialAuthState resp)) ∧
    Frontend.AuthInv (Frontend.logout Frontend.initialAuthState) ∧
    Frontend.AuthInv (Frontend.login Frontend.initialAuthState) ∧
    (Frontend.isAuthenticated Frontend.initialAuthState = true ↔
      Frontend.initialAuthState.session ≠ none) :=
  auth_provider_invariant Frontend.initialAuthState (Or.inl rfl)

end EveApp

namespace EveApp.Routing

/-! Helper lemmas for the route-calculation correctness theorem. -/

theorem minBy_foldl_mem (f : List Nat → Nat) :
    ∀ (l : List (List Nat)) (b : List Nat),
      (l.foldl (fun best q => if f q < f best then q else best) b) = b ∨
      (l.foldl (fun best q => if f q < f best then q else best) b) ∈ l := by
  intro l
  induction l with
  | nil => intro b; exact Or.inl rfl
  | cons x l ih =>
      intro b
      simp only [List.foldl_cons]
      rcases ih (if f x < f b then x else b) with h | h
      · rw [h]
        split
        · exact Or.inr (List.mem_cons_self _ _)
        · exact Or.inl rfl
      · exact Or.inr (List.mem_cons_of_mem _ h)

theorem minBy_foldl_le (f : List Nat → Nat) :
    ∀ (l : List (List Nat)) (b : List Nat),
      f (l.foldl (fun best q => if f q < f best then q else best) b) ≤ f b ∧
      ∀ q ∈ l, f (l.foldl (fun best q => if f q < f best then q else best) b) ≤ f q := by
  intro l
  induction l with
  | nil => intro b; exact ⟨le_refl _, by simp⟩
  | cons x l ih =>
      intro b
      simp only [List.foldl_cons]
      obtain ⟨h1, h2⟩ := ih (if f x < f b then x else b)
      constructor
      · refine le_trans h1 ?_
        split <;> omega
      · intro q hq
        rcases List.mem_cons.mp hq with rfl | hq
        · refine le_trans h1 ?_
          split <;> omega
        · exact h2 q hq

theorem minBy_mem (f : List Nat → Nat) (ps : List (List Nat)) (p : List Nat)
    (h : minBy f ps = some p) : p ∈ ps := by
  match ps with
  | [] => simp [minBy] at h
  | q :: rest =>
      simp only [minBy, Option.some.injEq] at h
      rcases minBy_foldl_mem f rest q with hm | hm
      · rw [h] at hm
        rw [hm]
        exact List.mem_cons_self _ _
      · rw [h] at hm
        exact List.mem_cons_of_mem _ hm

theorem minBy_le (f : List Nat → Nat) (ps : List (List Nat)) (p : List Nat)
    (h : minBy f ps = some p) : ∀ q ∈ ps, f p ≤ f q := by
  match ps with
  | [] => simp [minBy] at h
  | q₀ :: rest =>
      simp only [minBy, Option.some.injEq] at h
      obtain ⟨h1, h2⟩ := minBy_foldl_le f rest q₀
      intro q hq
      rcases List.mem_cons.mp hq with rfl | hq
      · rw [h] at h1; exact h1
      · rw [h] at h2; exact h2 q hq

theorem mem_edgesFrom (g : StarMap) (v w : Nat) :
    w ∈ edgesFrom g v ↔ (v, w) ∈ g.gates := by
  simp only [edgesFrom, List.mem_map, List.mem_filter, beq_iff_eq]
  constructor
  · rintro ⟨e, ⟨he, h1⟩, h2⟩
    have : e = (v, w) := by
      cases e
      simp_all
    rwa [this] at he
  · intro h
    exact ⟨(v, w), ⟨h, rfl⟩, rfl⟩

theorem extendPaths_shape (g : StarMap) :
    ∀ fuel pre v q, q ∈ extendPaths g fuel pre v →
      ∃ suffix, q = pre ++ v :: suffix ∧ List.Chain' (edgeRel g) (v :: suffix) := by
  intro fuel
  induction fuel with
  | zero =>
      intro pre v q hq
      simp only [extendPaths, List.mem_singleton] at hq
      exact ⟨[], by simpa using hq, List.chain'_singleton v⟩
  | succ f ih =>
      intro pre v q hq
      simp only [extendPaths, List.mem_cons, List.mem_flatMap, List.mem_filter] at hq
      rcases hq with rfl | ⟨w, ⟨hw, hnot⟩, hq⟩
      · exact ⟨[], by simp, List.chain'_singleton v⟩
      · obtain ⟨suffix, rfl, hchain⟩ := ih (pre ++ [v]) w q hq
        refine ⟨w :: suffix, by simp, ?_⟩
        rw [List.chain'_cons]
        exact ⟨(mem_edgesFrom g v w).mp hw, hchain⟩

theorem extendPaths_complete (g : StarMap) :
    ∀ suffix fuel pre v,
      List.Chain' (edgeRel g) (v :: suffix) →
      suffix.length ≤ fuel →
      (∀ x ∈ suffix, x ∉ pre ++ [v]) →
      suffix.Nodup →
      pre ++ v :: suffix ∈ extendPaths g fuel pre v := by
  intro suffix
  induction suffix with
  | nil =>
      intro fuel pre v _ _ _ _
      cases fuel <;> simp [extendPaths]
  | cons w rest ih =>
      intro fuel pre v hchain hlen hfresh hnodup
      cases fuel with
      | zero => simp at hlen
      | succ f =>
          simp only [extendPaths, List.mem_cons, List.mem_flatMap, List.mem_filter]
          right
          refine ⟨w, ⟨?_, ?_⟩, ?_⟩
          · exact (mem_edgesFrom g v w).mpr (List.chain'_cons.mp hchain).1
          · simp only [Bool.not_eq_eq_eq_not, Bool.not_true, decide_eq_false_iff_not]
            exact hfresh w (List.mem_cons_self _ _)
          · have hgoal := ih f (pre ++ [v]) w
              (List.chain'_cons.mp hchain).2
              (by simpa using hlen)
              ?_ (List.nodup_cons.mp hnodup).2
            · simpa using hgoal
            · intro x hx
              simp only [List.append_assoc, List.singleton_append, List.mem_append,
                List.mem_cons, List.not_mem_nil, or_false]
              rintro (hmem | rfl | rfl)
              · exact hfresh x (List.mem_cons_of_mem _ hx) (by simp [hmem])
              · exact hfresh x (List.mem_cons_of_mem _ hx) (by simp)
              · exact (List.nodup_cons.mp hnodup).1 hx

theorem getLast?_append_cons (A : List Nat) (x : Nat) (B : List Nat) :
    (A ++ x :: B).getLast? = (x :: B).getLast? := by
  rw [List.getLast?_append]
  cases h : (x :: B).getLast? with
  | none => exfalso; simp [List.getLast?_eq_none_iff] at h
  | some y => rfl

theorem head?_append_cons (A : List Nat) (x : Nat) (B C : List Nat) :
    (A ++ x :: B).head? = (A ++ x :: C).head? := by
  cases A <;> simp

theorem not_nodup_decomp :
    ∀ l : List Nat, ¬ l.Nodup → ∃ x l₁ l₂ l₃, l = l₁ ++ x :: l₂ ++ x :: l₃ := by
  intro l
  induction l with
  | nil => intro h; exact absurd List.nodup_nil h
  | cons a l ih =>
      intro h
      by_cases ha : a ∈ l
      · obtain ⟨s, t, rfl⟩ := List.append_of_mem ha
        exact ⟨a, [], s, t, rfl⟩
      · have : ¬ l.Nodup := fun hn => h (List.nodup_cons.mpr ⟨ha, hn⟩)
        obtain ⟨x, l₁, l₂, l₃, rfl⟩ := ih this
        exact ⟨x, a :: l₁, l₂, l₃, rfl⟩

theorem chain'_shortcut {R : Nat → Nat → Prop} (x : Nat) (l₁ l₂ l₃ : List Nat)
    (h : List.Chain' R (l₁ ++ x :: l₂ ++ x :: l₃)) :
    List.Chain' R (l₁ ++ x :: l₃) := by
  rw [show l₁ ++ x :: l₂ ++ x :: l₃ = l₁ ++ ((x :: l₂) ++ x :: l₃) by simp] at h
  rw [List.chain'_append] at h
  obtain ⟨h1, h2, hlink⟩ := h
  rw [List.chain'_append] at h2
  obtain ⟨h2a, h2b, hlink2⟩ := h2
  rw [List.chain'_append]
  refine ⟨h1, h2b, ?_⟩
  intro p hp q hq
  exact hlink p hp q (by simpa using hq)

theorem routeWeight_shortcut (g : StarMap) (x : Nat) (l₁ l₂ l₃ : List Nat) :
    routeWeight g (l₁ ++ x :: l₃) ≤ routeWeight g (l₁ ++ x :: l₂ ++ x :: l₃) := by
  cases l₁ <;>
    simp [routeWeight, List.map_append, List.sum_append] <;> omega

theorem validRoute_shortcut (g : StarMap) (a b x : Nat) (l₁ l₂ l₃ : List Nat)
    (h : validRoute g a b (l₁ ++ x :: l₂ ++ x :: l₃)) :
    validRoute g a b (l₁ ++ x :: l₃) := by
  obtain ⟨hh, hl, hc⟩ := h
  refine ⟨?_, ?_, chain'_shortcut x l₁ l₂ l₃ hc⟩
  · rw [show l₁ ++ x :: l₂ ++ x :: l₃ = l₁ ++ x :: (l₂ ++ x :: l₃) by simp] at hh
    rw [head?_append_cons l₁ x l₃ (l₂ ++ x :: l₃)]
    exact hh
  · rw [show l₁ ++ x :: l₂ ++ x :: l₃ = l₁ ++ x :: (l₂ ++ x :: l₃) by simp,
      getLast?_append_cons] at hl
    rw [getLast?_append_cons]
    rw [show x :: (l₂ ++ x :: l₃) = (x :: l₂) ++ x :: l₃ by simp,
      getLast?_append_cons] at hl
    exact hl

theorem validRoute_to_nodup (g : StarMap) (a b : Nat) :
    ∀ n q, q.length ≤ n → validRoute g a b q →
      ∃ r, validRoute g a b r ∧ r.Nodup ∧ routeWeight g r ≤ routeWeight g q := by
  intro n
  induction n using Nat.strong_induction_on with
  | _ n ih =>
      intro q hlen hq
      by_cases hnd : q.Nodup
      · exact ⟨q, hq, hnd, le_refl _⟩
      · obtain ⟨x, l₁, l₂, l₃, rfl⟩ := not_nodup_decomp q hnd
        have hshort : (l₁ ++ x :: l₃).length < (l₁ ++ x :: l₂ ++ x :: l₃).length := by
          simp
          omega
        have hlt : (l₁ ++ x :: l₃).length < n := by omega
        obtain ⟨r, hr, hrnd, hw⟩ :=
          ih (l₁ ++ x :: l₃).length hlt (l₁ ++ x :: l₃) (le_refl _)
            (validRoute_shortcut g a b x l₁ l₂ l₃ hq)
        exact ⟨r, hr, hrnd, le_trans hw (routeWeight_shortcut g x l₁ l₂ l₃)⟩

theorem mem_endpoints_of_edge (g : StarMap) (x y : Nat) (h : (x, y) ∈ g.gates) :
    x ∈ endpoints g ∧ y ∈ endpoints g := by
  constructor <;>
    · simp only [endpoints, List.mem_flatMap]
      exact ⟨(x, y), h, by simp⟩

theorem chain'_mem_endpoints (g : StarMap) :
    ∀ p, List.Chain' (edgeRel g) p → 2 ≤ p.length → ∀ v ∈ p, v ∈ endpoints g := by
  intro p
  induction p with
  | nil => intro _ h; simp at h
  | cons x rest ih =>
      intro hchain hlen v hv
      cases rest with
      | nil => simp at hlen
      | cons y rest' =>
          have hedge : edgeRel g x y := (List.chain'_cons.mp hchain).1
          rcases List.mem_cons.mp hv with rfl | hv
          · exact (mem_endpoints_of_edge g v y hedge).1
          · cases rest' with
            | nil =>
                have : v = y := by simpa using hv
                subst this
                exact (mem_endpoints_of_edge g x v hedge).2
            | cons z rest'' =>
                exact ih (List.chain'_cons.mp hchain).2 (by simp) v hv

theorem endpoints_length (g : StarMap) :
    (endpoints g).length = 2 * g.gates.length := by
  unfold endpoints
  induction g.gates with
  | nil => simp
  | cons e rest ih => simp_all [List.flatMap_cons]; omega

theorem nodup_route_length (g : StarMap) (q : List Nat)
    (hchain : List.Chain' (edgeRel g) q) (hnd : q.Nodup) (h2 : 2 ≤ q.length) :
    q.length ≤ 2 * g.gates.length := by
  have hsub : q ⊆ endpoints g := fun v hv => chain'_mem_endpoints g q hchain h2 v hv
  have := (hnd.subperm hsub).length_le
  rwa [endpoints_length] at this

theorem allRoutes_sound (g : StarMap) (a b : Nat) (p : List Nat)
    (h : p ∈ allRoutes g a b) : validRoute g a b p := by
  simp only [allRoutes, List.mem_filter, beq_iff_eq] at h
  obtain ⟨hmem, hlast⟩ := h
  obtain ⟨suffix, rfl, hchain⟩ := extendPaths_shape g _ [] a p hmem
  exact ⟨by simp, by simpa using hlast, by simpa using hchain⟩

theorem allRoutes_complete (g : StarMap) (a b : Nat) (q : List Nat)
    (hq : validRoute g a b q) (hnd : q.Nodup) : q ∈ allRoutes g a b := by
  obtain ⟨hh, hl, hc⟩ := hq
  match q with
  | [] => simp at hh
  | a' :: suffix =>
      have ha : a' = a := by simpa using hh
      subst ha
      have hfresh : ∀ x ∈ suffix, x ∉ ([] : List Nat) ++ [a'] := by
        intro x hx
        simp only [List.nil_append, List.mem_singleton]
        intro hxa
        subst hxa
        exact (List.nodup_cons.mp hnd).1 hx
      have hlen : suffix.length ≤ vertexBound g := by
        cases suffix with
        | nil => simp [vertexBound]
        | cons w rest =>
            have := nodup_route_length g (a' :: w :: rest) hc hnd (by simp)
            simp only [List.length_cons] at this ⊢
            unfold vertexBound
            omega
      have := extendPaths_complete g suffix (vertexBound g) [] a' hc hlen hfresh
        (List.nodup_cons.mp hnd).2
      simp only [allRoutes, List.mem_filter, beq_iff_eq]
      exact ⟨by simpa using this, by simpa using hl⟩

theorem calculate_route_correct (g : StarMap) (a b : Nat) (p : List Nat)
    (h : calculate_route g a b = some p) :
    validRoute g a b p ∧ ∀ q, validRoute g a b q → routeWeight g p ≤ routeWeight g q := by
  have hmem := minBy_mem _ _ _ h
  have hle := minBy_le _ _ _ h
  refine ⟨allRoutes_sound g a b p hmem, ?_⟩
  intro q hq
  obtain ⟨r, hr, hrnd, hw⟩ := validRoute_to_nodup g a b q.length q (le_refl _) hq
  exact le_trans (hle r (allRoutes_complete g a b r hr hrnd)) hw

end EveApp.Routing

namespace EveApp

/-- C6: the risk weight of an edge is a function of the destination
system's security status alone — 1 for High Sec (at least 0.5), 50 for Low
Sec (0.1 to 0.4), 1000 for Null Sec (at most 0.0) — a route's weight is
the sum of these over its jumps, and whenever `calculate_route` returns a
route it is a gate-connected route from start to destination whose total
weight is minimal among all such routes. -/
theorem route_weighted_shortest_path :
    (∀ s : Int,
      (5 ≤ s → Routing.riskWeight s = 1) ∧
      (1 ≤ s ∧ s ≤ 4 → Routing.riskWeight s = 50) ∧
      (s ≤ 0 → Routing.riskWeight s = 1000)) ∧
    (∀ (g : Routing.StarMap) (p : List Nat), Routing.routeWeight g p =
      (p.tail.map fun v => Routing.riskWeight (g.sec v)).sum) ∧
    (∀ g a b p, Routing.calculate_route g a b = some p →
      Routing.validRoute g a b p ∧
      ∀ q, Routing.validRoute g a b q →
        Routing.routeWeight g p ≤ Routing.routeWeight g q) := by
  refine ⟨?_, fun _ _ => rfl, Routing.calculate_route_correct⟩
  intro s
  refine ⟨?_, ?_, ?_⟩
  · intro h
    unfold Routing.riskWeight
    rw [if_pos h]
  · rintro ⟨h1, h4⟩
    unfold Routing.riskWeight
    rw [if_neg (by omega), if_pos h1]
  · intro h
    unfold Routing.riskWeight
    rw [if_neg (by omega), if_neg (by omega)]

/-- Witness for `route_weighted_shortest_path` on the sample universe: the
route returned for 1 to 3 is the all-High-Sec detour `[1, 2, 3]`, and it is
minimal. -/
theorem route_weighted_shortest_path_w :
    Routing.validRoute Routing.sampleMap 1 3 [1, 2, 3] ∧
    ∀ q, Routing.validRoute Routing.sampleMap 1 3 q →
      Routing.routeWeight Routing.sampleMap [1, 2, 3] ≤
        Routing.routeWeight Routing.sampleMap q :=
  route_weighted_shortest_path.2.2 Routing.sampleMap 1 3 [1, 2, 3] (by decide)

end EveApp
